import Mathlib

/-!
Verification of the zimtohrli perceptual audio metric sources.

The development shallowly embeds the C++ pipeline from the repository
(`SimpleDb`, `FinalizeDb`, `Rotators::IncrementAll`,
`Rotators::FilterAndDownsample` in the fourier_bank translation unit) and the
Go `compare` command line driver.  Machine floating point is modelled by the
real numbers (and, for the generic cores, by an arbitrary linear ordered
field so that concrete instances can be evaluated over the rationals).

The local variable `v2` in both masking loops of `FinalizeDb` is declared
inside the loop body with an initializer that reads `v2` itself, so every
iteration reads an indeterminate value (only the first visited channel
overwrites the result).  The embedding makes that indeterminate value
explicit: each pass takes an oracle `ℕ → α` supplying the value observed by
the self-initializing read of iteration `k`.
-/

namespace Zimtohrli

/-! ### SimpleDb: energy to decibel-like loudness -/

/-- Constant `full_scale_sine_db` from `SimpleDb`. -/
noncomputable def fullScaleSineDb : ℝ := 75.27901963526045

/-- Constant `exp_full_scale_sine_db = exp(full_scale_sine_db)` from `SimpleDb`. -/
noncomputable def expFullScaleSineDb : ℝ := Real.exp fullScaleSineDb

/-- Constant `epsilon = 1.0033294789821357e-09 * exp_full_scale_sine_db` from `SimpleDb`. -/
noncomputable def simpleDbEpsilon : ℝ := 1.0033294789821357e-9 * expFullScaleSineDb

/-- Constant `kMul = 10.0/log(10)` from `SimpleDb`. -/
noncomputable def kMul : ℝ := 10 / Real.log 10

/-- Function `SimpleDb(energy) = kMul * log(energy + epsilon)`. -/
noncomputable def SimpleDb (energy : ℝ) : ℝ := kMul * Real.log (energy + simpleDbEpsilon)

/-! ### FinalizeDb: the two masking passes -/

/-- The calibrated constants used by `FinalizeDb`, abstracted over the number
type so that the passes can be evaluated over `ℚ` and instantiated at the
real constants of the source. -/
structure MaskParams (α : Type) where
  stepUp0 : α
  stepUp1 : α
  stepUp2 : α
  gapUp : α
  strengthUp : α
  blurUp : α
  fractionUp : α
  stepDown : α
  gapDown : α
  strengthDown : α
  blurDown : α
  minLimit : α
  fractionDown : α

variable {α : Type} [LinearOrderedField α]

/-- The region dependent masker decay of the upward pass of `FinalizeDb`:
`masker_step_per_rot_up_0` while `3 * k < kNumRotators`,
`masker_step_per_rot_up_1` while `3 * k < 2 * kNumRotators`, and
`masker_step_per_rot_up_2` above. -/
def upDecay (p : MaskParams α) (N k : ℕ) : α :=
  if 3 * k < N then p.stepUp0 else if 3 * k < 2 * N then p.stepUp1 else p.stepUp2

/-- One iteration of the upward (low to high channel) loop of `FinalizeDb`.
`o` is the indeterminate value observed by the self-initializing read of the
local `v2`; `e` is the raw channel energy and `db` the conversion
`SimpleDb(mul * energy)`.  Returns the value written back to the channel and
the masker carried to the next iteration. -/
def upStep (p : MaskParams α) (db : α → α) (N k : ℕ) (o masker e : α) : α × α :=
  let v := db e
  let v := if v < p.minLimit then p.minLimit else v
  let v2 := (1 - p.blurUp) * o + p.blurUp * v
  let v2 := if k = 0 then v else v2
  let masker := if masker < v2 then v2 else masker
  let mask := p.fractionUp * masker - p.gapUp
  let v := if v < mask then p.strengthUp * mask + (1 - p.strengthUp) * v else v
  (v, masker - upDecay p N k)

/-- The upward loop of `FinalizeDb`, from channel `k` with the given masker. -/
def upGo (p : MaskParams α) (db : α → α) (o : ℕ → α) (N : ℕ) :
    ℕ → α → List α → List α
  | _, _, [] => []
  | k, masker, e :: rest =>
    let r := upStep p db N k (o k) masker e
    r.1 :: upGo p db o N (k + 1) r.2 rest

/-- The complete upward pass of `FinalizeDb` over one frame. -/
def upPass (p : MaskParams α) (db : α → α) (o : ℕ → α) (frame : List α) : List α :=
  upGo p db o frame.length 0 0 frame

/-- One iteration of the downward (high to low channel) loop of `FinalizeDb`,
reading the value `v` already produced by the upward pass.  `j` counts
iterations, so `j = 0` corresponds to channel `kNumRotators - 1`. -/
def downStep (p : MaskParams α) (j : ℕ) (o masker v : α) : α × α :=
  let v2 := (1 - p.blurDown) * o + p.blurDown * v
  let _v2 := if j = 0 then v else v2
  let masker := if masker < v then v else masker
  let mask := p.fractionDown * masker - p.gapDown
  let v := if v < mask then p.strengthDown * mask + (1 - p.strengthDown) * v else v
  (v, masker - p.stepDown)

/-- The downward loop of `FinalizeDb`, processing the reversed frame. -/
def downGo (p : MaskParams α) (o : ℕ → α) : ℕ → α → List α → List α
  | _, _, [] => []
  | j, masker, v :: rest =>
    let r := downStep p j (o j) masker v
    r.1 :: downGo p o (j + 1) r.2 rest

/-- The complete downward pass of `FinalizeDb` over one frame. -/
def downPass (p : MaskParams α) (o : ℕ → α) (frame : List α) : List α :=
  (downGo p o 0 0 frame.reverse).reverse

/-- Function `FinalizeDb` on one frame: the upward pass followed by the downward pass
on the values already rewritten by the upward pass.  `db` is the energy to
loudness conversion applied by the upward loop and `oUp`, `oDown` resolve the
indeterminate `v2` reads of the two loops. -/
def finalizeDb (p : MaskParams α) (db : α → α) (oUp oDown : ℕ → α)
    (frame : List α) : List α :=
  downPass p oDown (upPass p db oUp frame)

/-- Constant `octaves_in_20_to_20000 = log(20000/20)/log(2)` from `FinalizeDb`. -/
noncomputable def octavesIn20To20000 : ℝ := Real.log (20000 / 20) / Real.log 2

/-- Constant `octaves_per_rot = octaves_in_20_to_20000 / (kNumRotators - 1)`, with the
number of rotators as a parameter. -/
noncomputable def octavesPerRot (N : ℕ) : ℝ := octavesIn20To20000 / ((N : ℝ) - 1)

/-- The concrete constants of `FinalizeDb` for a bank of `N` rotators. -/
noncomputable def zimtMaskParams (N : ℕ) : MaskParams ℝ where
  stepUp0 := octavesPerRot N * 15.892019717473835
  stepUp1 := octavesPerRot N * 21.852019717473834
  stepUp2 := octavesPerRot N * 20.79201971747383
  gapUp := 19.140338374861235
  strengthUp := 0.1252262923615547
  blurUp := 0.8738593591692092
  fractionUp := 1.02
  stepDown := octavesPerRot N * 42.33972783112732
  gapDown := 19.66099875393617
  strengthDown := 0.19329999999999992
  blurDown := 0.714425315233319
  minLimit := -11.397341001787765
  fractionDown := 1.02

/-- Function `FinalizeDb(channels, mul, out_ix)` on one row of the channel matrix,
over the real constants of the source. -/
noncomputable def FinalizeDbR (mul : ℝ) (oUp oDown : ℕ → ℝ) (frame : List ℝ) : List ℝ :=
  finalizeDb (zimtMaskParams frame.length) (fun e => SimpleDb (mul * e)) oUp oDown frame

/-! ### The resonator bank -/

/-- The per-channel constants of one rotator: `rot[0]`, `rot[1]` (the fixed
angular increment as a unit phasor), `window` and `gain`. -/
structure RotConst (α : Type) where
  rot0 : α
  rot1 : α
  window : α
  gain : α

/-- The per-channel mutable state of one rotator: the rotating phasor
`rot[2]`, `rot[3]` and the six accumulator stages `accu[0]..accu[5]`. -/
structure RotState (α : Type) where
  rot2 : α
  rot3 : α
  accu0 : α
  accu1 : α
  accu2 : α
  accu3 : α
  accu4 : α
  accu5 : α

/-- The body of `Rotators::IncrementAll` for one channel: rotate the phasor,
leak every accumulator stage by the window, add each stage into the next one
for stages 2..5, and add the rotated gain-scaled sample into stages 0 and 1. -/
def incrementOne (c : RotConst α) (signal : α) (s : RotState α) : RotState α :=
  let tr := c.rot0 * s.rot2 - c.rot1 * s.rot3
  let tc := c.rot0 * s.rot3 + c.rot1 * s.rot2
  let b0 := s.accu0 * c.window
  let b1 := s.accu1 * c.window
  let b2 := s.accu2 * c.window + b0
  let b3 := s.accu3 * c.window + b1
  let b4 := s.accu4 * c.window + b2
  let b5 := s.accu5 * c.window + b3
  { rot2 := tr, rot3 := tc,
    accu0 := b0 + tr * signal, accu1 := b1 + tc * signal,
    accu2 := b2, accu3 := b3, accu4 := b4, accu5 := b5 }

/-- The instantaneous energy of one channel as read by
`Rotators::FilterAndDownsample`: `accu[4]^2 + accu[5]^2`. -/
def energy (s : RotState α) : α := s.accu4 * s.accu4 + s.accu5 * s.accu5

/-- A bank of rotators: constants and state for each channel. -/
def Bank (α : Type) : Type := List (RotConst α × RotState α)

/-- Method `Rotators::IncrementAll` over the whole bank. -/
def incrementAll (signal : α) (bank : Bank α) : Bank α :=
  bank.map fun cs => (cs.1, incrementOne cs.1 signal cs.2)

/-- The body of `Rotators::OccasionallyRenormalize` for one channel, with the
square root supplied as a function parameter. -/
def renormalizeOne (sqrtF : α → α) (c : RotConst α) (s : RotState α) : RotState α :=
  let norm := c.gain / sqrtF (s.rot2 * s.rot2 + s.rot3 * s.rot3)
  { s with rot2 := s.rot2 * norm, rot3 := s.rot3 * norm }

/-- Method `Rotators::OccasionallyRenormalize` over the whole bank. -/
def renormalizeAll (sqrtF : α → α) (bank : Bank α) : Bank α :=
  bank.map fun cs => (cs.1, renormalizeOne sqrtF cs.1 cs.2)

/-- The vector of instantaneous channel energies of the bank. -/
def energies (bank : Bank α) : List α :=
  bank.map fun cs => energy cs.2

/-- Function `CalculateBandwidth(low, mid, high)`. -/
noncomputable def calculateBandwidth (low mid high : ℝ) : ℝ :=
  let geo_mean_low := Real.sqrt (low * mid)
  let geo_mean_high := Real.sqrt (mid * high)
  |geo_mean_high - mid| + |mid - geo_mean_low|

/-- Constant `kWindow` from the `Rotators` constructor. -/
noncomputable def kWindow : ℝ := 0.9996028710680265

/-- Constant `kBandwidthMagic` from the `Rotators` constructor. -/
noncomputable def kBandwidthMagic : ℝ := 0.7328516996032982

/-- The per-channel constants computed by the `Rotators` constructor from the
channel's neighbouring frequencies, its filter gain and the sample rate. -/
noncomputable def rotatorConst (sampleRate freqPrev freqMid freqNext filterGain : ℝ) :
    RotConst ℝ :=
  let bw := calculateBandwidth freqPrev freqMid freqNext
  let window := Real.rpow kWindow (bw * kBandwidthMagic)
  let windowM1 := 1 - window
  let f := freqMid * 2 * Real.pi / sampleRate
  let full_scale_sine_db := Real.exp 75.27901963526045
  let gainer := 2 * Real.sqrt full_scale_sine_db
  { rot0 := Real.cos f, rot1 := -Real.sin f,
    window := window, gain := gainer * filterGain * windowM1 ^ (3 : ℕ) }

/-! ### FilterAndDownsample -/

/-- The inner (`zz`) loop of `Rotators::FilterAndDownsample`: per sample,
increment the whole bank, then overwrite the output row with the energies on
the first sample of the window (`zz = 0`) and add them on later samples. -/
def accumGo : Bank α → List α → List α → ℕ → Bank α × List α
  | bank, row, [], _ => (bank, row)
  | bank, row, x :: xs, zz =>
    accumGo (incrementAll x bank)
      (if zz = 0 then energies (incrementAll x bank)
       else List.zipWith (· + ·) row (energies (incrementAll x bank)))
      xs (zz + 1)

/-- The inner loop of `Rotators::FilterAndDownsample` over one window of
samples, starting at `zz = 0` from the row's previous contents. -/
def accumFrame (bank : Bank α) (row : List α) (samples : List α) : Bank α × List α :=
  accumGo bank row samples 0

/-- The summation the inner loop implements, written as a direct recursion:
the channel-wise sum, over every sample of the window, of the bank's
instantaneous energies after stepping the bank by that sample. -/
def energySum (bank : Bank α) : List α → List α
  | [] => []
  | [x] => energies (incrementAll x bank)
  | x :: xs =>
    let b := incrementAll x bank
    List.zipWith (· + ·) (energies b) (energySum b xs)

/-- The `FinalizeDb` call made by `Rotators::FilterAndDownsample` on one
output row, with conversion `SimpleDb`-analogue `simple` and the
`scaling_for_downsampling` multiplier. -/
def finalizeRow (p : MaskParams α) (simple : α → α) (scaling : α)
    (oUp oDown : ℕ → α) (row : List α) : List α :=
  finalizeDb p (fun e => simple (scaling * e)) oUp oDown row

/-- The outer loop of `Rotators::FilterAndDownsample`.  `sig` is the not yet
consumed tail of the signal (the loop variable `ii` points at its head),
`out_ix` the current output row, `chan` the output matrix.  The `abort()`
taken when the streamed frame count disagrees with the expected output length
is modelled by `Except.error ()`.  The oracles `oUp`, `oDown` resolve the
indeterminate `v2` reads of each `FinalizeDb` call, indexed by output row. -/
def fadGo (sqrtF simple : α → α) (p : MaskParams α) (oUp oDown : ℕ → ℕ → α)
    (d : ℕ) (sig : List α) (out_ix : ℕ) (bank : Bank α) (chan : List (List α)) :
    Except Unit (List (List α)) :=
  if h : sig = [] then .ok chan
  else
    let bank1 := renormalizeAll sqrtF bank
    let r := accumFrame bank1 (chan.getD out_ix []) (sig.take d)
    if sig.length < d then
      let chan2 :=
        if out_ix < chan.length then
          chan.set out_ix (finalizeRow p simple (1 / (d : α)) (oUp out_ix) (oDown out_ix) r.2)
        else chan
      if out_ix + 1 = chan.length then .ok chan2 else .error ()
    else
      let chan2 :=
        chan.set out_ix (finalizeRow p simple (1 / (d : α)) (oUp out_ix) (oDown out_ix) r.2)
      if chan.length ≤ out_ix + 1 then .ok chan2
      else fadGo sqrtF simple p oUp oDown d (sig.drop d) (out_ix + 1) r.1 chan2
  termination_by (sig.length, chan.length - out_ix)
  decreasing_by
    simp only [Prod.lex_def, List.length_drop, List.length_set]
    rcases Nat.eq_zero_or_pos d with hd | hd
    · right
      constructor
      · omega
      · omega
    · left
      have : 0 < sig.length := List.length_pos.mpr h
      omega

/-- Method `Rotators::FilterAndDownsample(signal, channels, downsampling)`. -/
def filterAndDownsample (sqrtF simple : α → α) (p : MaskParams α)
    (oUp oDown : ℕ → ℕ → α) (d : ℕ) (signal : List α) (bank : Bank α)
    (chan : List (List α)) : Except Unit (List (List α)) :=
  fadGo sqrtF simple p oUp oDown d signal 0 bank chan

/-! ### The Go compare driver -/

/-- An in-memory audio signal as loaded by `aio.Load`: a sample rate and one
sample sequence per audio channel. -/
structure GoSignal (α : Type) where
  rate : α
  samples : List (List α)
deriving DecidableEq

/-- Modelled from the spec: `goohrli.Measure` is not under `src/`; per its use
in the compare driver it reports the maximum absolute amplitude of a sample
sequence. -/
def maxAbsAmplitude (xs : List α) : α :=
  xs.foldl (fun m x => max m |x|) 0

/-- Modelled from the spec: `goohrli.NormalizeAmplitude(maxAbsAmplitude, samples)`
is not under `src/`; per its name and its call, made purely for its effect on
the sample buffer, it rescales the samples in place so that their maximum
absolute amplitude equals the given target. -/
def normalizeAmplitude (target : α) (xs : List α) : List α :=
  let m := maxAbsAmplitude xs
  if m = 0 then xs else xs.map (· * (target / m))

/-- The comparison logic of the Go `compare` command (`main` in the driver):
reject mismatched sample rates, then mismatched channel counts, then either
compare per channel (measuring signal A's amplitude, normalizing signal B's
channel in place, and computing the per-channel distance) or compute the
whole-signal normalized distance.  `distance` and `nad` stand for the
external `goohrli.Distance` and `goohrli.NormalizedAudioDistance`, `mos` for
`goohrli.MOSFromZimtohrli`.  Returns the printed metrics together with the
final contents of the two signals' sample buffers. -/
def compareMain (distance : List α → List α → α)
    (nad : GoSignal α → GoSignal α → Except String α) (mos : α → α)
    (outputRaw perChannel : Bool) (a b : GoSignal α) :
    Except String (List α × GoSignal α × GoSignal α) :=
  if a.rate ≠ b.rate then .error "sample rate mismatch"
  else if a.samples.length ≠ b.samples.length then .error "channel count mismatch"
  else
    let getMetric : α → α := fun f => if outputRaw then f else mos f
    if perChannel then
      let results := List.zipWith
        (fun sa sb =>
          let sb2 := normalizeAmplitude (maxAbsAmplitude sa) sb
          (getMetric (distance sa sb2), sb2))
        a.samples b.samples
      .ok (results.map Prod.fst, a, { b with samples := results.map Prod.snd })
    else
      match nad a b with
      | .error e => .error e
      | .ok dist => .ok ([getMetric dist], a, b)

/-! ### The MOS mapping -/

/-- Modelled from the spec: `cpp/zimt/mos.cc` is not under `src/` (only the
declaration in `cpp/zimt/mos.h` is).  Per the spec, `MOSFromZimtohrli` is a
fixed calibrated curve, stateless and monotonic, mapping a raw distance into
an approximate 1 to 5 opinion-score range. -/
def MOSFromZimtohrli (d : α) : α := 1 + 4 / (1 + d)

/-! ### Helper lemmas -/

/-- A clamp written with a strict comparison is a binary maximum. -/
theorem ite_lt_max (a b : α) : (if a < b then b else a) = max a b := by
  rcases lt_or_le a b with h | h
  · rw [if_pos h, max_eq_right h.le]
  · rw [if_neg (not_lt.mpr h), max_eq_left h]

/-- Positivity of the per-rotator octave step for at least two rotators. -/
theorem octavesPerRot_pos {N : ℕ} (hN : 2 ≤ N) : 0 < octavesPerRot N := by
  have h1 : (0 : ℝ) < Real.log (20000 / 20) := by
    apply Real.log_pos; norm_num
  have h2 : (0 : ℝ) < Real.log 2 := Real.log_pos (by norm_num)
  have h3 : (0 : ℝ) < (N : ℝ) - 1 := by
    have : (2 : ℝ) ≤ (N : ℝ) := by exact_mod_cast hN
    linarith
  unfold octavesPerRot octavesIn20To20000
  positivity

/-! ### Claim C2 -/

/-- Claim C2: for every raw energy `e`, `SimpleDb` returns `k * ln(e + eps)`
with `k = 10 / ln 10` and `eps` the fixed positive calibrated floor
`1.0033294789821357e-9 * exp 75.27901963526045`, so on nonnegative energies
the result is bounded below by its value at zero energy. -/
theorem simpleDb_loudness_conversion :
    0 < simpleDbEpsilon ∧
    (∀ e : ℝ, SimpleDb e =
      (10 / Real.log 10) *
        Real.log (e + 1.0033294789821357e-9 * Real.exp 75.27901963526045)) ∧
    (∀ e : ℝ, 0 ≤ e → SimpleDb 0 ≤ SimpleDb e) := by
  have heps : 0 < simpleDbEpsilon := by
    unfold simpleDbEpsilon expFullScaleSineDb fullScaleSineDb
    positivity
  refine ⟨heps, fun e => rfl, fun e he => ?_⟩
  unfold SimpleDb kMul
  have hlog10 : 0 < Real.log 10 := Real.log_pos (by norm_num)
  have hk : 0 ≤ 10 / Real.log 10 := by positivity
  apply mul_le_mul_of_nonneg_left _ hk
  apply Real.log_le_log (by linarith) (by linarith)

/-- Concrete instance of the `SimpleDb` lower bound at energy 2. -/
theorem simpleDb_loudness_conversion_witness :
    (0 : ℝ) ≤ 2 ∧ SimpleDb 0 ≤ SimpleDb 2 :=
  ⟨by norm_num, simpleDb_loudness_conversion.2.2 2 (by norm_num)⟩

/-! ### Claim C10 -/

/-- Claim C10: the distance to MOS mapping is a fixed calibrated function of
the raw distance alone and is non-increasing over the domain of distances,
with values in the 1 to 5 opinion-score range. -/
theorem mosFromZimtohrli_monotone :
    ∀ d1 d2 : ℚ, 0 ≤ d1 → d1 ≤ d2 →
      MOSFromZimtohrli d2 ≤ MOSFromZimtohrli d1 ∧
      1 < MOSFromZimtohrli d1 ∧ MOSFromZimtohrli d1 ≤ 5 := by
  intro d1 d2 h0 h12
  have h1 : (0 : ℚ) < 1 + d1 := by linarith
  have h2 : (0 : ℚ) < 1 + d2 := by linarith
  unfold MOSFromZimtohrli
  refine ⟨?_, ?_, ?_⟩
  · have : 4 / (1 + d2) ≤ 4 / (1 + d1) :=
      div_le_div_of_nonneg_left (by norm_num) h1 (by linarith)
    linarith
  · have : 0 < 4 / (1 + d1) := by positivity
    linarith
  · have : 4 / (1 + d1) ≤ 4 := div_le_self (by norm_num) (by linarith)
    linarith

/-- Concrete instance of the MOS monotonicity at distances 0 and 1. -/
theorem mosFromZimtohrli_monotone_witness :
    (0 : ℚ) ≤ 0 ∧ (0 : ℚ) ≤ 1 ∧
      (MOSFromZimtohrli (1 : ℚ) ≤ MOSFromZimtohrli 0 ∧
        1 < MOSFromZimtohrli (0 : ℚ) ∧ MOSFromZimtohrli (0 : ℚ) ≤ 5) :=
  ⟨le_refl 0, by norm_num, mosFromZimtohrli_monotone 0 1 (le_refl 0) (by norm_num)⟩

/-! ### Claim C5 -/

/-- Claim C5: a comparison of two signals with different sample rates or
different channel counts is rejected with an error before any distance is
computed: the outcome is an error, and it does not depend on the distance
backends at all (so the inputs are never coerced and compared anyway). -/
theorem compareMain_rejects_mismatch (a b : GoSignal α)
    (h : a.rate ≠ b.rate ∨ a.samples.length ≠ b.samples.length) :
    ∀ (dist dist2 : List α → List α → α)
      (nad nad2 : GoSignal α → GoSignal α → Except String α)
      (mos mos2 : α → α) (outputRaw perChannel : Bool),
      (∃ msg, compareMain dist nad mos outputRaw perChannel a b = .error msg) ∧
      compareMain dist nad mos outputRaw perChannel a b =
        compareMain dist2 nad2 mos2 outputRaw perChannel a b := by
  intro dist dist2 nad nad2 mos mos2 outputRaw perChannel
  by_cases hr : a.rate = b.rate
  · have hl : a.samples.length ≠ b.samples.length := by tauto
    refine ⟨⟨"channel count mismatch", ?_⟩, ?_⟩ <;>
      simp [compareMain, hr, hl]
  · refine ⟨⟨"sample rate mismatch", ?_⟩, ?_⟩ <;>
      simp [compareMain, hr]

/-- Concrete instance: signals with rates 48000 and 44100 are rejected. -/
theorem compareMain_rejects_mismatch_witness :
    (GoSignal.mk (48000 : ℚ) [[1]]).rate ≠ (GoSignal.mk (44100 : ℚ) [[1]]).rate ∧
    (∃ msg,
      compareMain (fun _ _ => (0 : ℚ)) (fun _ _ => .ok 0) id true false
        (GoSignal.mk (48000 : ℚ) [[1]]) (GoSignal.mk (44100 : ℚ) [[1]]) = .error msg) := by
  have hne : (GoSignal.mk (48000 : ℚ) [[1]]).rate ≠ (GoSignal.mk (44100 : ℚ) [[1]]).rate := by
    norm_num
  exact ⟨hne,
    (compareMain_rejects_mismatch _ _ (Or.inl hne) (fun _ _ => (0 : ℚ)) (fun _ _ => 0)
      (fun _ _ => .ok 0) (fun _ _ => .ok 0) id id true false).1⟩

/-! ### Claim C8 -/

/-- Claim C8: the constructor precomputes the unit phasor `(cos f, -sin f)`
of the channel's angular increment `f`; each `IncrementAll` step rotates the
channel phasor by complex multiplication with it, multiplies all six
accumulator stages by the window coefficient, then adds the previous stage
into stages 2..5 and the rotated gain-carrying sample into stages 0..1; the
channel's instantaneous energy is `accu[4]^2 + accu[5]^2`. -/
theorem incrementAll_rotator_semantics :
    (∀ sr fp fm fn g : ℝ,
      (rotatorConst sr fp fm fn g).rot0 = Real.cos (fm * 2 * Real.pi / sr) ∧
      (rotatorConst sr fp fm fn g).rot1 = -Real.sin (fm * 2 * Real.pi / sr)) ∧
    (∀ (c : RotConst ℝ) (x : ℝ) (s : RotState ℝ),
      ((incrementOne c x s).rot2 : ℂ) + ((incrementOne c x s).rot3 : ℂ) * Complex.I =
        ((c.rot0 : ℂ) + (c.rot1 : ℂ) * Complex.I) *
          ((s.rot2 : ℂ) + (s.rot3 : ℂ) * Complex.I)) ∧
    (∀ (c : RotConst ℝ) (x : ℝ) (s : RotState ℝ),
      incrementOne c x s =
        { rot2 := c.rot0 * s.rot2 - c.rot1 * s.rot3,
          rot3 := c.rot0 * s.rot3 + c.rot1 * s.rot2,
          accu0 := s.accu0 * c.window + (c.rot0 * s.rot2 - c.rot1 * s.rot3) * x,
          accu1 := s.accu1 * c.window + (c.rot0 * s.rot3 + c.rot1 * s.rot2) * x,
          accu2 := s.accu2 * c.window + s.accu0 * c.window,
          accu3 := s.accu3 * c.window + s.accu1 * c.window,
          accu4 := s.accu4 * c.window + (s.accu2 * c.window + s.accu0 * c.window),
          accu5 := s.accu5 * c.window + (s.accu3 * c.window + s.accu1 * c.window) }) ∧
    (∀ s : RotState ℝ, energy s = s.accu4 * s.accu4 + s.accu5 * s.accu5) ∧
    (∀ bank : Bank ℝ,
      energies bank = bank.map fun cs => cs.2.accu4 * cs.2.accu4 + cs.2.accu5 * cs.2.accu5) := by
  refine ⟨fun sr fp fm fn g => ⟨rfl, rfl⟩, ?_, fun c x s => rfl, fun s => rfl, fun bank => rfl⟩
  intro c x s
  simp only [incrementOne]
  rw [Complex.ext_iff]
  constructor <;> simp

/-! ### Claim C1 -/

/-- Claim C1: `FinalizeDb` is exactly the upward pass (low to high channel)
followed by the downward pass (high to low) on the values already rewritten
by the upward pass; the upward masker decays per channel by one of three
distinct region dependent steps with boundaries `3k < N` and `3k < 2N`; the
downward pass decays by a single step; and in each pass the channel value `v`
is blended to `strength * mask + (1 - strength) * v` exactly when
`v < fraction * masker - gap`. -/
theorem finalizeDb_two_pass_structure :
    (∀ (mul : ℝ) (oU oD : ℕ → ℝ) (frame : List ℝ),
      FinalizeDbR mul oU oD frame =
        downPass (zimtMaskParams frame.length) oD
          (upPass (zimtMaskParams frame.length) (fun e => SimpleDb (mul * e)) oU frame)) ∧
    (∀ (p : MaskParams ℝ) (N k : ℕ),
      upDecay p N k =
        if 3 * k < N then p.stepUp0 else if 3 * k < 2 * N then p.stepUp1 else p.stepUp2) ∧
    (∀ N : ℕ, 2 ≤ N →
      (zimtMaskParams N).stepUp0 ≠ (zimtMaskParams N).stepUp1 ∧
      (zimtMaskParams N).stepUp1 ≠ (zimtMaskParams N).stepUp2 ∧
      (zimtMaskParams N).stepUp0 ≠ (zimtMaskParams N).stepUp2) ∧
    (∀ (p : MaskParams ℝ) (db : ℝ → ℝ) (N k : ℕ) (o masker e : ℝ),
      upStep p db N k o masker e =
        (let v := max (db e) p.minLimit
         let v2 := if k = 0 then v else (1 - p.blurUp) * o + p.blurUp * v
         let m := max masker v2
         ((if v < p.fractionUp * m - p.gapUp then
             p.strengthUp * (p.fractionUp * m - p.gapUp) + (1 - p.strengthUp) * v
           else v),
          m - upDecay p N k))) ∧
    (∀ (p : MaskParams ℝ) (j : ℕ) (o masker v : ℝ),
      downStep p j o masker v =
        (let m := max masker v
         ((if v < p.fractionDown * m - p.gapDown then
             p.strengthDown * (p.fractionDown * m - p.gapDown) + (1 - p.strengthDown) * v
           else v),
          m - p.stepDown))) := by
  refine ⟨fun mul oU oD frame => rfl, fun p N k => rfl, ?_, ?_, ?_⟩
  · intro N hN
    have hpos := octavesPerRot_pos hN
    have hne := ne_of_gt hpos
    refine ⟨?_, ?_, ?_⟩ <;>
      · simp only [zimtMaskParams]
        intro heq
        have := mul_left_cancel₀ hne heq
        norm_num at this
  · intro p db N k o masker e
    simp only [upStep, ite_lt_max]
  · intro p j o masker v
    simp only [downStep, ite_lt_max]

/-- Concrete instance of the up-pass region structure for three rotators. -/
theorem finalizeDb_two_pass_structure_witness :
    2 ≤ 3 ∧
      ((zimtMaskParams 3).stepUp0 ≠ (zimtMaskParams 3).stepUp1 ∧
        (zimtMaskParams 3).stepUp1 ≠ (zimtMaskParams 3).stepUp2 ∧
        (zimtMaskParams 3).stepUp0 ≠ (zimtMaskParams 3).stepUp2) :=
  ⟨by norm_num, finalizeDb_two_pass_structure.2.2.1 3 (by norm_num)⟩

/-! ### Claim C6 -/

/-- The value written back by one upward iteration never falls below the
clamp floor: the value is clamped up to the floor first, and a blend with
`0 ≤ strength ≤ 1` toward a mask lying above the value only increases it. -/
theorem upStep_fst_floor (p : MaskParams α) (db : α → α) (N k : ℕ) (o m e : α)
    (hs0 : 0 ≤ p.strengthUp) (hs1 : p.strengthUp ≤ 1) :
    p.minLimit ≤ (upStep p db N k o m e).1 := by
  simp only [upStep, ite_lt_max]
  have hv : p.minLimit ≤ max (db e) p.minLimit := le_max_right _ _
  set v := max (db e) p.minLimit with hvdef
  set m2 := max m (if k = 0 then v else (1 - p.blurUp) * o + p.blurUp * v) with hm2
  split_ifs with h
  · nlinarith [mul_nonneg hs0 (sub_nonneg.mpr h.le)]
  · exact hv

/-- One downward iteration never decreases a lower bound that the incoming
value already satisfies. -/
theorem downStep_fst_ge (p : MaskParams α) (j : ℕ) (o m v c : α)
    (hs0 : 0 ≤ p.strengthDown) (hs1 : p.strengthDown ≤ 1) (hv : c ≤ v) :
    c ≤ (downStep p j o m v).1 := by
  simp only [downStep, ite_lt_max]
  split_ifs with h
  · nlinarith [mul_nonneg hs0 (sub_nonneg.mpr h.le)]
  · exact hv

/-- Every value produced by the upward loop is at least the clamp floor. -/
theorem upGo_mem_floor (p : MaskParams α) (db : α → α) (o : ℕ → α) (N : ℕ)
    (hs0 : 0 ≤ p.strengthUp) (hs1 : p.strengthUp ≤ 1) :
    ∀ (frame : List α) (k : ℕ) (m x : α),
      x ∈ upGo p db o N k m frame → p.minLimit ≤ x := by
  intro frame
  induction frame with
  | nil => intro k m x hx; simp [upGo] at hx
  | cons e rest ih =>
    intro k m x hx
    simp only [upGo, List.mem_cons] at hx
    rcases hx with hx | hx
    · subst hx; exact upStep_fst_floor p db N k (o k) m e hs0 hs1
    · exact ih _ _ _ hx

/-- The downward loop preserves a lower bound satisfied by its input frame. -/
theorem downGo_mem_ge (p : MaskParams α) (o : ℕ → α) (c : α)
    (hs0 : 0 ≤ p.strengthDown) (hs1 : p.strengthDown ≤ 1) :
    ∀ (frame : List α) (j : ℕ) (m x : α), (∀ y ∈ frame, c ≤ y) →
      x ∈ downGo p o j m frame → c ≤ x := by
  intro frame
  induction frame with
  | nil => intro j m x hall hx; simp [downGo] at hx
  | cons v rest ih =>
    intro j m x hall hx
    simp only [downGo, List.mem_cons] at hx
    rcases hx with hx | hx
    · subst hx
      exact downStep_fst_ge p j (o j) m v c hs0 hs1 (hall v (by simp))
    · exact ih _ _ _ (fun y hy => hall y (by simp [hy])) hx

/-- Claim C6: every loudness value is clamped up to the fixed floor
`min_limit` before the masking blends, and both blends only move values
upward, so every entry of the frame written back by `FinalizeDb` is at least
that floor. -/
theorem finalizeDb_floor (db : ℝ → ℝ) (oU oD : ℕ → ℝ) (frame : List ℝ) (x : ℝ)
    (hx : x ∈ finalizeDb (zimtMaskParams frame.length) db oU oD frame) :
    (zimtMaskParams frame.length).minLimit ≤ x := by
  have hsU0 : (0 : ℝ) ≤ (zimtMaskParams frame.length).strengthUp := by
    simp only [zimtMaskParams]; norm_num
  have hsU1 : (zimtMaskParams frame.length).strengthUp ≤ 1 := by
    simp only [zimtMaskParams]; norm_num
  have hsD0 : (0 : ℝ) ≤ (zimtMaskParams frame.length).strengthDown := by
    simp only [zimtMaskParams]; norm_num
  have hsD1 : (zimtMaskParams frame.length).strengthDown ≤ 1 := by
    simp only [zimtMaskParams]; norm_num
  unfold finalizeDb downPass at hx
  rw [List.mem_reverse] at hx
  refine downGo_mem_ge _ _ _ hsD0 hsD1 _ _ _ _ ?_ hx
  intro y hy
  rw [List.mem_reverse] at hy
  exact upGo_mem_floor _ db oU _ hsU0 hsU1 _ _ _ _ hy

/-- Concrete instance of the floor invariant on a one-channel zero frame. -/
theorem finalizeDb_floor_witness :
    (0 : ℝ) ∈ finalizeDb (zimtMaskParams [(0 : ℝ)].length)
        (fun _ => 0) (fun _ => 0) (fun _ => 0) [0] ∧
      (zimtMaskParams [(0 : ℝ)].length).minLimit ≤ 0 := by
  have hmem : (0 : ℝ) ∈ finalizeDb (zimtMaskParams [(0 : ℝ)].length)
      (fun _ => 0) (fun _ => 0) (fun _ => 0) [0] := by
    norm_num [finalizeDb, upPass, downPass, upGo, downGo, upStep, downStep, zimtMaskParams]
  exact ⟨hmem, finalizeDb_floor _ _ _ _ _ hmem⟩

/-! ### Claim C9 -/

/-- Counterexample to claim C9: a per-channel comparison that produces its
distances returns with signal B's sample buffer rewritten in place (here the
channel `[2]` has been amplitude-normalized to `[1]`), so the sample
sequences are not unchanged after the computation. -/
theorem compareMain_mutates_b_counterexample :
    compareMain (fun _ _ => (0 : ℚ)) (fun _ _ => .ok 0) id true true
        (GoSignal.mk 48000 [[1]]) (GoSignal.mk 48000 [[2]]) =
      .ok ([0], GoSignal.mk 48000 [[1]], GoSignal.mk 48000 [[1]]) ∧
    (GoSignal.mk (48000 : ℚ) [[1]]).samples ≠ (GoSignal.mk (48000 : ℚ) [[2]]).samples := by
  constructor
  · norm_num [compareMain, normalizeAmplitude, maxAbsAmplitude]
  · simp only [ne_eq, List.cons.injEq]
    norm_num

/-- Claim C9 amended: in per-channel mode, the comparison leaves signal A's
buffers unchanged but rewrites each channel of signal B in place with the
amplitude-normalized samples (normalized to signal A's measured maximum
absolute amplitude) before computing that channel's distance; in whole-signal
mode both buffers are returned unchanged. -/
theorem compareMain_buffer_effects (dist : List α → List α → α)
    (nad : GoSignal α → GoSignal α → Except String α) (mos : α → α)
    (outputRaw : Bool) (a b : GoSignal α)
    (hr : a.rate = b.rate) (hl : a.samples.length = b.samples.length) :
    (compareMain dist nad mos outputRaw true a b =
      .ok
        (List.zipWith
          (fun sa sb =>
            if outputRaw then dist sa (normalizeAmplitude (maxAbsAmplitude sa) sb)
            else mos (dist sa (normalizeAmplitude (maxAbsAmplitude sa) sb)))
          a.samples b.samples,
         a,
         GoSignal.mk b.rate
           (List.zipWith (fun sa sb => normalizeAmplitude (maxAbsAmplitude sa) sb)
             a.samples b.samples))) ∧
    (∀ res, compareMain dist nad mos outputRaw false a b = .ok res →
      res.2.1 = a ∧ res.2.2 = b) := by
  constructor
  · simp [compareMain, hr, hl, List.map_zipWith]
  · intro res h
    rcases hnad : nad a b with e | val <;> simp [compareMain, hr, hl, hnad] at h
    rw [← h]
    exact ⟨rfl, rfl⟩

/-- Concrete instance of the per-channel buffer effects. -/
theorem compareMain_buffer_effects_witness :
    compareMain (fun _ _ => (0 : ℚ)) (fun _ _ => .ok 0) id true true
        (GoSignal.mk 48000 [[1]]) (GoSignal.mk 48000 [[2]]) =
      .ok ([0], GoSignal.mk 48000 [[1]], GoSignal.mk 48000 [[1]]) := by
  have h := (compareMain_buffer_effects (fun _ _ => (0 : ℚ)) (fun _ _ => .ok 0) id true
    (GoSignal.mk 48000 [[1]]) (GoSignal.mk 48000 [[2]]) rfl rfl).1
  norm_num [normalizeAmplitude, maxAbsAmplitude] at h
  exact h

/-! ### Claim C3 -/

/-- The first upward iteration is independent of the indeterminate read: at
`k = 0` the self-initialized `v2` is immediately overwritten by `v`. -/
theorem upStep_zero_oracle_irrelevant (p : MaskParams α) (db : α → α) (N : ℕ)
    (o o2 m e : α) : upStep p db N 0 o m e = upStep p db N 0 o2 m e := by
  simp [upStep]

/-- Claim C3: in the upward pass every channel after the first blends with a
value read from an uninitialized local, and the read is live: for every frame
with at least two channels there is a resolution of the indeterminate values
that changes the output of the pass, so the pass has no well-defined result
independent of them. -/
theorem upPass_uninitialized_read_observable (db : ℝ → ℝ) (frame : List ℝ)
    (h2 : 2 ≤ frame.length) :
    ∃ o2 : ℕ → ℝ,
      upPass (zimtMaskParams frame.length) db (fun _ => 0) frame ≠
        upPass (zimtMaskParams frame.length) db o2 frame := by
  rcases frame with _ | ⟨e0, rest0⟩
  · simp at h2
  rcases rest0 with _ | ⟨e1, rest⟩
  · simp at h2
  set N := (e0 :: e1 :: rest).length with hN
  set p := zimtMaskParams N with hp
  have hblur : p.blurUp = 0.8738593591692092 := by
    rw [hp]; simp [zimtMaskParams]
  have hstrength : p.strengthUp = 0.1252262923615547 := by
    rw [hp]; simp [zimtMaskParams]
  have hfraction : p.fractionUp = 1.02 := by
    rw [hp]; simp [zimtMaskParams]
  have h1mb : (0 : ℝ) < 1 - p.blurUp := by rw [hblur]; norm_num
  have hs : (0 : ℝ) < p.strengthUp := by rw [hstrength]; norm_num
  have hf : (0 : ℝ) < p.fractionUp := by rw [hfraction]; norm_num
  set A := upStep p db N 0 0 0 e0 with hA
  set M := A.2 with hM
  set v1 := max (db e1) p.minLimit with hv1
  set X := (upStep p db N 1 0 M e1).1 with hX
  set slope := p.strengthUp * (p.fractionUp * (1 - p.blurUp)) with hslope
  have hslope_pos : 0 < slope := by
    rw [hslope]; exact mul_pos hs (mul_pos hf h1mb)
  set c := p.strengthUp * (p.fractionUp * (p.blurUp * v1) - p.gapUp) +
    (1 - p.strengthUp) * v1 with hc
  set T := max ((M - p.blurUp * v1) / (1 - p.blurUp))
    (max (((v1 + p.gapUp) / p.fractionUp - p.blurUp * v1) / (1 - p.blurUp))
      ((X - c) / slope)) + 1 with hT
  have hT1 : M < (1 - p.blurUp) * T + p.blurUp * v1 := by
    have h1 : (M - p.blurUp * v1) / (1 - p.blurUp) < T := by
      rw [hT]; exact lt_of_le_of_lt (le_max_left _ _) (lt_add_one _)
    rw [div_lt_iff₀ h1mb] at h1
    nlinarith [h1]
  have hT2 : v1 < p.fractionUp * ((1 - p.blurUp) * T + p.blurUp * v1) - p.gapUp := by
    have h1 : ((v1 + p.gapUp) / p.fractionUp - p.blurUp * v1) / (1 - p.blurUp) < T := by
      rw [hT]
      exact lt_of_le_of_lt (le_trans (le_max_left _ _) (le_max_right _ _)) (lt_add_one _)
    rw [div_lt_iff₀ h1mb] at h1
    have h2 : (v1 + p.gapUp) / p.fractionUp < (1 - p.blurUp) * T + p.blurUp * v1 := by
      nlinarith [h1]
    rw [div_lt_iff₀ hf] at h2
    nlinarith [h2]
  have hT3 : X < p.strengthUp *
      (p.fractionUp * ((1 - p.blurUp) * T + p.blurUp * v1) - p.gapUp) +
      (1 - p.strengthUp) * v1 := by
    have h1 : (X - c) / slope < T := by
      rw [hT]
      exact lt_of_le_of_lt (le_trans (le_max_right _ _) (le_max_right _ _)) (lt_add_one _)
    rw [div_lt_iff₀ hslope_pos] at h1
    rw [hslope, hc] at h1
    nlinarith [h1]
  have hstep2 : (upStep p db N 1 T M e1).1 =
      p.strengthUp * (p.fractionUp * ((1 - p.blurUp) * T + p.blurUp * v1) - p.gapUp) +
        (1 - p.strengthUp) * v1 := by
    simp only [upStep, ite_lt_max, one_ne_zero, if_false, ← hv1]
    rw [max_eq_right hT1.le, if_pos hT2]
  refine ⟨fun _ => T, ?_⟩
  intro heq
  simp only [upPass, upGo] at heq
  rw [upStep_zero_oracle_irrelevant p db N T 0 0 e0] at heq
  simp only [List.cons.injEq] at heq
  have h21 := heq.2.1
  rw [hstep2] at h21
  rw [← hX] at h21
  exact absurd h21 (ne_of_lt hT3)

/-- Concrete instance on a two-channel zero frame. -/
theorem upPass_uninitialized_read_observable_witness :
    2 ≤ ([(0 : ℝ), 0]).length ∧
      ∃ o2 : ℕ → ℝ,
        upPass (zimtMaskParams ([(0 : ℝ), 0]).length) (fun _ => 0) (fun _ => 0) [0, 0] ≠
          upPass (zimtMaskParams ([(0 : ℝ), 0]).length) (fun _ => 0) o2 [0, 0] :=
  ⟨by norm_num, upPass_uninitialized_read_observable (fun _ => 0) [0, 0] (by norm_num)⟩

/-! ### Claim C7 -/

/-- Channel-wise addition of energy rows is associative. -/
theorem zipWith_add_assoc_list (a b c : List α) :
    List.zipWith (· + ·) (List.zipWith (· + ·) a b) c =
      List.zipWith (· + ·) a (List.zipWith (· + ·) b c) := by
  induction a generalizing b c with
  | nil => simp
  | cons x xs ih =>
    cases b with
    | nil => simp
    | cons y ys =>
      cases c with
      | nil => simp
      | cons z zs => simp [ih, add_assoc]

/-- After the first sample of a window, the inner loop accumulates the
remaining samples' energies on top of the row. -/
theorem accumGo_snd_of_pos :
    ∀ (xs : List α) (b : Bank α) (row : List α) (z : ℕ), z ≠ 0 → xs ≠ [] →
      (accumGo b row xs z).2 = List.zipWith (· + ·) row (energySum b xs) := by
  intro xs
  induction xs with
  | nil => intro b row z hz hne; exact absurd rfl hne
  | cons x xs ih =>
    intro b row z hz hne
    cases xs with
    | nil => simp [accumGo, hz, energySum]
    | cons y ys =>
      rw [accumGo, if_neg hz]
      rw [ih _ _ (z + 1) (Nat.succ_ne_zero z) (by simp)]
      simp only [energySum]
      exact zipWith_add_assoc_list _ _ _

/-- The row produced by the inner loop over a nonempty window is exactly the
channel-wise sum of the per-sample energies, regardless of the row's previous
contents. -/
theorem accumFrame_snd (b : Bank α) (row : List α) (x : α) (xs : List α) :
    (accumFrame b row (x :: xs)).2 = energySum b (x :: xs) := by
  cases xs with
  | nil => simp [accumFrame, accumGo, energySum]
  | cons y ys =>
    show (accumGo b row (x :: y :: ys) 0).2 = _
    rw [accumGo, if_pos rfl]
    rw [accumGo_snd_of_pos _ _ _ 1 one_ne_zero (by simp)]
    simp only [energySum]

/-- Claim C7: each complete output frame is produced by summing the
per-channel instantaneous energies over exactly the `downsampling` input
samples of its window, and that sum, scaled by `1/downsampling`, is finalized
into the output frame — a decimation by summation, not a subsampling. -/
theorem filterAndDownsample_sums_energies :
    (∀ (bank : Bank ℝ) (row : List ℝ) (x : ℝ) (xs : List ℝ),
      (accumFrame bank row (x :: xs)).2 = energySum bank (x :: xs)) ∧
    (∀ (sqrtF simple : ℝ → ℝ) (p : MaskParams ℝ) (oUp oDown : ℕ → ℕ → ℝ) (d : ℕ)
        (sig : List ℝ) (out_ix : ℕ) (bank : Bank ℝ) (chan : List (List ℝ)),
      sig ≠ [] → 1 ≤ d → d ≤ sig.length →
      (sig.take d).length = d ∧
      fadGo sqrtF simple p oUp oDown d sig out_ix bank chan =
        (let bank1 := renormalizeAll sqrtF bank
         let chan2 := chan.set out_ix
           (finalizeRow p simple (1 / (d : ℝ)) (oUp out_ix) (oDown out_ix)
             (energySum bank1 (sig.take d)))
         if chan.length ≤ out_ix + 1 then .ok chan2
         else fadGo sqrtF simple p oUp oDown d (sig.drop d) (out_ix + 1)
           (accumFrame bank1 (chan.getD out_ix []) (sig.take d)).1 chan2)) := by
  refine ⟨accumFrame_snd, ?_⟩
  intro sqrtF simple p oUp oDown d sig out_ix bank chan hne hd hdlen
  refine ⟨List.length_take_of_le hdlen, ?_⟩
  obtain ⟨w, ws, hw⟩ : ∃ w ws, sig.take d = w :: ws := by
    cases sig with
    | nil => exact absurd rfl hne
    | cons s ss =>
      cases d with
      | zero => omega
      | succ d0 => exact ⟨s, ss.take d0, by simp⟩
  conv_lhs => rw [fadGo]
  rw [dif_neg hne]
  simp only [if_neg (not_lt.mpr hdlen)]
  rw [hw, accumFrame_snd]

/-- Concrete instance of the window summation on a two-sample window. -/
theorem filterAndDownsample_sums_energies_witness :
    ([(1 : ℝ), 2] ≠ []) ∧ 1 ≤ 2 ∧ 2 ≤ ([(1 : ℝ), 2]).length ∧
      ([(1 : ℝ), 2].take 2).length = 2 :=
  ⟨by simp, by norm_num, by norm_num,
    (filterAndDownsample_sums_energies.2 id id (zimtMaskParams 1) (fun _ _ => 0)
      (fun _ _ => 0) 2 [1, 2] 0 [] [[0]] (by simp) (by norm_num) (by norm_num)).1⟩

/-! ### Claim C4 -/

/-- Characterization of the abort of `FilterAndDownsample`: starting from row
`out_ix < chan.length`, the computation aborts exactly when the remaining
signal is not a whole number of windows and the rows it can still fill leave
a gap of more than the one final partial frame. -/
theorem fadGo_error_iff (sqrtF simple : α → α) (p : MaskParams α)
    (oUp oDown : ℕ → ℕ → α) (d : ℕ) (hd : 1 ≤ d) :
    ∀ (n : ℕ) (sig : List α), sig.length ≤ n → ∀ (out_ix : ℕ) (bank : Bank α)
      (chan : List (List α)), out_ix < chan.length →
      (fadGo sqrtF simple p oUp oDown d sig out_ix bank chan = .error () ↔
        ¬ (d ∣ sig.length) ∧ sig.length / d + (out_ix + 1) < chan.length) := by
  intro n
  induction n with
  | zero =>
    intro sig hlen out_ix bank chan hout
    have hnil : sig = [] := List.length_eq_zero.mp (Nat.le_zero.mp hlen)
    subst hnil
    rw [fadGo]
    simp
  | succ n ih =>
    intro sig hlen out_ix bank chan hout
    by_cases hnil : sig = []
    · subst hnil
      rw [fadGo]
      simp
    · rw [fadGo, dif_neg hnil]
      have hpos : 0 < sig.length := List.length_pos.mpr hnil
      by_cases hmid : sig.length < d
      · simp only [if_pos hmid]
        have hndvd : ¬ d ∣ sig.length := by
          intro hdvd
          exact absurd (Nat.le_of_dvd hpos hdvd) (not_le.mpr hmid)
        have hdiv0 : sig.length / d = 0 := Nat.div_eq_of_lt hmid
        by_cases hl : out_ix + 1 = chan.length
        · rw [if_pos hl]
          simp only [hdiv0]
          constructor
          · intro herr; exact absurd herr (by simp)
          · intro hrhs; omega
        · rw [if_neg hl]
          simp only [hdiv0]
          constructor
          · intro _; exact ⟨hndvd, by omega⟩
          · intro _; trivial
      · push_neg at hmid
        simp only [if_neg (not_lt.mpr hmid)]
        have hdivpos : 1 ≤ sig.length / d := (Nat.one_le_div_iff (by omega)).mpr hmid
        by_cases hlast : chan.length ≤ out_ix + 1
        · rw [if_pos hlast]
          constructor
          · intro herr; exact absurd herr (by simp)
          · intro hrhs; omega
        · rw [if_neg hlast]
          have hdroplen : (sig.drop d).length ≤ n := by
            rw [List.length_drop]; omega
          have hrec := ih (sig.drop d) hdroplen (out_ix + 1)
            (accumFrame (renormalizeAll sqrtF bank) (chan.getD out_ix []) (sig.take d)).1
            (chan.set out_ix
              (finalizeRow p simple (1 / (d : α)) (oUp out_ix) (oDown out_ix)
                (accumFrame (renormalizeAll sqrtF bank) (chan.getD out_ix [])
                  (sig.take d)).2))
            (by rw [List.length_set]; omega)
          rw [hrec, List.length_set, List.length_drop]
          have hsub : sig.length - d + d = sig.length := Nat.sub_add_cancel hmid
          have hdvd_iff : d ∣ sig.length - d ↔ d ∣ sig.length := by
            constructor
            · intro h; rw [← hsub]; exact Nat.dvd_add h dvd_rfl
            · intro h; exact (Nat.dvd_sub' h dvd_rfl)
          have hdivrec : sig.length / d = (sig.length - d) / d + 1 :=
            Nat.div_eq_sub_div (by omega) hmid
          rw [hdvd_iff, hdivrec]
          constructor
          · intro h; exact ⟨h.1, by omega⟩
          · intro h; exact ⟨h.1, by omega⟩

/-- Claim C4: when the input runs out in the middle of an output frame,
`FilterAndDownsample` finalizes the partial frame from the energies
accumulated so far, and it aborts (rather than returning) exactly when the
complete frames it produced fall short of the expected output length by more
than one frame; in particular a gap of exactly one (the final partial frame)
is accepted. -/
theorem filterAndDownsample_edge_policy (sqrtF simple : ℝ → ℝ) (p : MaskParams ℝ)
    (oUp oDown : ℕ → ℕ → ℝ) (d : ℕ) (hd : 1 ≤ d) :
    (∀ (sig : List ℝ) (out_ix : ℕ) (bank : Bank ℝ) (chan : List (List ℝ)),
      sig ≠ [] → sig.length < d →
      fadGo sqrtF simple p oUp oDown d sig out_ix bank chan =
        (let chan2 :=
          if out_ix < chan.length then
            chan.set out_ix
              (finalizeRow p simple (1 / (d : ℝ)) (oUp out_ix) (oDown out_ix)
                (accumFrame (renormalizeAll sqrtF bank) (chan.getD out_ix []) sig).2)
          else chan
         if out_ix + 1 = chan.length then .ok chan2 else .error ())) ∧
    (∀ (signal : List ℝ) (bank : Bank ℝ) (chan : List (List ℝ)), 1 ≤ chan.length →
      (filterAndDownsample sqrtF simple p oUp oDown d signal bank chan = .error () ↔
        ¬ (d ∣ signal.length) ∧ signal.length / d + 1 < chan.length)) := by
  constructor
  · intro sig out_ix bank chan hne hmid
    rw [fadGo, dif_neg hne]
    simp only [if_pos hmid]
    rw [List.take_of_length_le hmid.le]
  · intro signal bank chan hF
    exact fadGo_error_iff sqrtF simple p oUp oDown d hd signal.length signal le_rfl 0 bank
      chan (by omega)

/-- Concrete instance: with downsampling 2, a three-sample signal and three
expected output rows, the streamed frame count disagrees by more than one
frame and the computation aborts. -/
theorem filterAndDownsample_edge_policy_witness :
    filterAndDownsample (id : ℝ → ℝ) id (zimtMaskParams 3) (fun _ _ => 0) (fun _ _ => 0) 2
        [1, 2, 3] [] [[0], [0], [0]] = .error () :=
  ((filterAndDownsample_edge_policy id id (zimtMaskParams 3) (fun _ _ => 0) (fun _ _ => 0)
      2 (by norm_num)).2 [1, 2, 3] [] [[0], [0], [0]] (by norm_num)).mpr
    ⟨by decide, by norm_num⟩

end Zimtohrli
